import Mathlib

/-!
Shallow embedding of hypr-binds.py: a tool that lists window-manager
keybindings, groups symmetric binding families, and renders them as a
bordered two-column text table.  Python dicts with insertion order are
modelled as association lists, Python strings as Lean String (a list of
unicode code points, matching Python len and indexing semantics), and
Python exceptions as Option results (none = the call raises).
-/

/-- One raw binding record as produced by the source adapter
(hyprctl binds -j): the four fields the program reads. -/
structure RawBind where
  modmask : Nat
  key : String
  dispatcher : String
  arg : String
deriving DecidableEq

/-- A post-normalization display record: dict with fields key and action. -/
structure DisplayRec where
  key : String
  action : String
deriving DecidableEq

/-- The grouper's output elements.  Python keeps raw dicts (which have a
key field but no action field) next to merged dicts (key and action);
the field-presence check in normalize_keybinds distinguishes them, which
this tagged type mirrors. -/
inductive BindRec where
  | raw (b : RawBind)
  | merged (key action : String)
deriving DecidableEq

/-- Decimal digits of a natural number, most significant first
(the characters Python produces for a nonnegative int). -/
def natToChars (n : Nat) : List Char :=
  if n < 10 then [Nat.digitChar n]
  else natToChars (n / 10) ++ [Nat.digitChar (n % 10)]
decreasing_by exact Nat.div_lt_self (by omega) (by omega)

/-- MODMASKS.get(modmask, f"MOD_{modmask}") over the fixed lookup table. -/
def format_modmask (m : Nat) : String :=
  if m = 64 then "SUPER"
  else if m = 65 then "SUPER+SHIFT"
  else if m = 68 then "SUPER+CTRL"
  else if m = 72 then "SUPER+SHIFT+CTRL"
  else if m = 0 then ""
  else "MOD_" ++ String.mk (natToChars m)

/-- format_keybind: modifier label joined to the key with a plus sign,
the join omitted when the label is the empty (falsy) string. -/
def format_keybind (b : RawBind) : String :=
  let mod := format_modmask b.modmask
  if mod = "" then b.key else mod ++ "+" ++ b.key

/-- re.sub of every maximal digit run by two dots, one pass over the
characters; the flag records whether we are inside a run already
replaced. -/
def subDigitsAux : Bool → List Char → List Char
  | _, [] => []
  | inRun, c :: rest =>
    if c.isDigit then
      (if inRun then [] else ['.', '.']) ++ subDigitsAux true rest
    else c :: subDigitsAux false rest

/-- The first substitution building the arg-shape fingerprint. -/
def subDigits (l : List Char) : List Char := subDigitsAux false l

/-- re.sub of the alternation left, right, up, down, l, r, u, d by two
dots: at each position the first alternative (in that order) that
matches is replaced and scanning resumes after it. -/
def subDirs : List Char → List Char
  | 'l' :: 'e' :: 'f' :: 't' :: rest => '.' :: '.' :: subDirs rest
  | 'r' :: 'i' :: 'g' :: 'h' :: 't' :: rest => '.' :: '.' :: subDirs rest
  | 'u' :: 'p' :: rest => '.' :: '.' :: subDirs rest
  | 'd' :: 'o' :: 'w' :: 'n' :: rest => '.' :: '.' :: subDirs rest
  | 'l' :: rest => '.' :: '.' :: subDirs rest
  | 'r' :: rest => '.' :: '.' :: subDirs rest
  | 'u' :: rest => '.' :: '.' :: subDirs rest
  | 'd' :: rest => '.' :: '.' :: subDirs rest
  | c :: rest => c :: subDirs rest
  | [] => []

/-- The arg-shape fingerprint: digit runs replaced first, direction
tokens second (the two re.sub calls in group_keybinds). -/
def fingerprint (s : String) : String := String.mk (subDirs (subDigits s.data))

/-- dict.setdefault(key, []).append(v) on an insertion-ordered dict
modelled as an association list: append v to the entry of k, or append a
fresh (k, [v]) entry at the end. -/
def insertG {κ α : Type} [DecidableEq κ] (k : κ) (v : α) :
    List (κ × List α) → List (κ × List α)
  | [] => [(k, [v])]
  | p :: rest => if p.1 = k then (p.1, p.2 ++ [v]) :: rest else p :: insertG k v rest

/-- The accumulation loop filling such a dict from a list, bucketing by
the key function f. -/
def dictGroup {κ α : Type} [DecidableEq κ] (f : α → κ) :
    List α → List (κ × List α) → List (κ × List α)
  | [], acc => acc
  | b :: bs, acc => dictGroup f bs (insertG (f b) b acc)

/-- Python's "sep".join(parts). -/
def joinSep (sep : String) : List String → String
  | [] => ""
  | [s] => s
  | s :: rest => s ++ sep ++ joinSep sep rest

/-- The body of the inner loop of group_keybinds over one fingerprint
sub-bucket: a singleton passes through raw, a larger group merges into a
single display-shaped record whose key joins the modifier label of the
group's first element (always with a plus sign) to the slash-joined
keys, and whose action joins the bucket's dispatcher to the slash-joined
args.  The empty case is unreachable (buckets collect at least the
element that created them); Python would raise an IndexError there. -/
def mergeRows (dispatcher : String) (g : List RawBind) : List BindRec :=
  match g with
  | [] => []
  | [b] => [BindRec.raw b]
  | b :: c :: rest =>
    [BindRec.merged
      (format_modmask b.modmask ++ "+" ++ joinSep "/" ((b :: c :: rest).map (fun e => e.key)))
      (dispatcher ++ " " ++ joinSep "/" ((b :: c :: rest).map (fun e => e.arg)))]

/-- group_keybinds: bucket by (modmask, dispatcher), sub-bucket by the
arg fingerprint, pass singleton sub-buckets through raw and merge larger
ones into a single display-shaped record. -/
def group_keybinds (binds : List RawBind) : List BindRec :=
  (dictGroup (fun b => (b.modmask, b.dispatcher)) binds []).flatMap (fun p =>
    (dictGroup (fun b => fingerprint b.arg) p.2 []).flatMap (fun q =>
      mergeRows p.1.2 q.2))

/-- The fingerprint sub-partition of the (modifier mask, dispatcher)
bucket of a binding list: first the bucket filter, then the fingerprint
filter, in encounter order.  Used to state which group a merged row was
synthesized from. -/
def bucketOf (binds : List RawBind) (m : Nat) (d : String) (fp : String) : List RawBind :=
  (binds.filter (fun x => decide ((x.modmask, x.dispatcher) = (m, d)))).filter
    (fun x => decide (fingerprint x.arg = fp))

/-- normalize_keybinds: records already display-shaped pass through,
raw records are formatted; exactly one output per input. -/
def normalize_keybinds : List BindRec → List DisplayRec
  | [] => []
  | BindRec.raw b :: rest =>
    { key := format_keybind b, action := b.dispatcher ++ " " ++ b.arg } :: normalize_keybinds rest
  | BindRec.merged k a :: rest => { key := k, action := a } :: normalize_keybinds rest

/-- Insert a record into a list sorted by key, before the first record
whose key is not smaller: together with sortRecs this is the unique
stable ascending sort by key, the behavior Python's list.sort with
key=lambda x: x['key'] is documented to implement. -/
def insertRec (x : DisplayRec) : List DisplayRec → List DisplayRec
  | [] => [x]
  | y :: ys => if x.key ≤ y.key then x :: y :: ys else y :: insertRec x ys

/-- Stable sort of the display records by key (flat.sort in main). -/
def sortRecs : List DisplayRec → List DisplayRec
  | [] => []
  | x :: xs => insertRec x (sortRecs xs)

/-- Accumulate the non-whitespace words of a character list, the word
being built carried reversed (the whitespace splitting textwrap performs
before filling lines). -/
def wordsAux : List Char → List Char → List (List Char)
  | [], cur => if cur.isEmpty then [] else [cur.reverse]
  | c :: rest, cur =>
    if c.isWhitespace then
      if cur.isEmpty then wordsAux rest [] else cur.reverse :: wordsAux rest []
    else wordsAux rest (c :: cur)

/-- Greedy line filling at width W: words join the current line while it
stays within W, a word longer than W is broken into chunks of at most
max 1 W characters, and a full line is flushed before the next word.
The fuel argument only bounds the recursion; wrapText passes more fuel
than the number of steps the greedy loop can take, so the fuel-exhausted
branch is unreachable. -/
def fillFuel : Nat → Nat → List (List Char) → List Char → List (List Char)
  | 0, _, _, cur => if cur.isEmpty then [] else [cur]
  | _ + 1, _, [], cur => if cur.isEmpty then [] else [cur]
  | fuel + 1, W, w :: ws, cur =>
    if cur.isEmpty then
      if w.length ≤ W then fillFuel fuel W ws w
      else w.take (max 1 W) :: fillFuel fuel W (w.drop (max 1 W) :: ws) []
    else if cur.length + 1 + w.length ≤ W then fillFuel fuel W ws (cur ++ ' ' :: w)
    else cur :: fillFuel fuel W (w :: ws) []

/-- Model of textwrap.wrap(s, W) with the default options, restricted to
the behaviors draw_table relies on: whitespace-separated greedy filling,
long words broken, and no output lines for whitespace-only input.
(Python raises ValueError for W at most 0; draw_table guards that case
before calling, so this model is only consulted for positive W.) -/
def wrapText (s : String) (W : Nat) : List String :=
  let ws := wordsAux s.data []
  (fillFuel (2 * ((ws.map List.length).sum + ws.length) + 1) W ws []).map String.mk

/-- Python str.ljust: pad with spaces on the right up to width w, never
truncating. -/
def padTo (s : String) (w : Nat) : String :=
  s ++ String.mk (List.replicate (w - s.length) ' ')

/-- One horizontal border line of the table. -/
def hline (kw aw : Nat) (l m r : Char) : String :=
  String.mk (l :: (List.replicate kw '─' ++ m :: (List.replicate aw '─' ++ [r])))

/-- The left column width: max(header label length, longest key) plus 2,
capped at half the total width (the first line of draw_table; Python
raises ValueError here when entries is empty, handled by the caller). -/
def keyWidthOf (entries : List DisplayRec) (tw : Nat) : Nat :=
  min (max ("Keybind".length) (entries.foldl (fun m e => max m e.key.length) 0) + 2) (tw / 2)

/-- The lines printed for one entry: the main row beside the key, then
one continuation row per extra wrapped line, prefixed by the arrow
marker.  none models the IndexError Python raises reading
action_lines[0] when the wrap of the action produced no lines. -/
def rowLines (kw aw : Nat) (e : DisplayRec) : Option (List String) :=
  match wrapText e.action (aw - 2) with
  | [] => none
  | first :: more =>
    some (("│" ++ padTo e.key kw ++ "│" ++ padTo first aw ++ "│") ::
      more.map (fun extra => "│" ++ padTo " " kw ++ "│" ++ "→ " ++ padTo extra (aw - 2) ++ "│"))

/-- The body rows of the table, failing as soon as one entry fails
(Python raises out of the loop at the first bad entry). -/
def rowsAll (kw aw : Nat) : List DisplayRec → Option (List String)
  | [] => some []
  | e :: rest =>
    match rowLines kw aw e, rowsAll kw aw rest with
    | some ls, some more => some (ls ++ more)
    | _, _ => none

/-- draw_table: the full sequence of lines the renderer prints, or none
when Python raises: on the width computation for an empty entry list
(max over an empty sequence), on a wrap width of at most 0 (ValueError
from textwrap), or on an action whose wrap yields no lines (IndexError).
The bottom border printed on the last loop iteration is appended at the
end, which is the same thing since entries is nonempty in that branch. -/
def draw_table (entries : List DisplayRec) (tw : Nat) : Option (List String) :=
  match entries with
  | [] => none
  | _ :: _ =>
    let kw := keyWidthOf entries tw
    let aw := tw - kw - 1
    if aw ≤ 2 then none
    else
      match rowsAll kw aw entries with
      | none => none
      | some rows =>
        some (hline kw aw '┌' '┬' '┐' ::
          ("│" ++ padTo "Keybind" kw ++ "│" ++ padTo "Action" aw ++ "│") ::
          hline kw aw '├' '┼' '┤' ::
          (rows ++ [hline kw aw '└' '┴' '┘']))

/-- Split a character list at every occurrence of the character c; the
result always has one more piece than there are occurrences of c. -/
def splitChar (c : Char) : List Char → List (List Char)
  | [] => [[]]
  | x :: xs =>
    match splitChar c xs with
    | [] => []
    | w :: ws => if x = c then [] :: w :: ws else (x :: w) :: ws

/-- The last piece of a split on c: everything after the last occurrence
of c (the whole list when c does not occur). -/
def lastSeg (c : Char) (l : List Char) : List Char := (splitChar c l).getLastD []

/-- Everything after the first occurrence of c (the empty list when c
does not occur). -/
def afterFirst (c : Char) : List Char → List Char
  | [] => []
  | x :: xs => if x = c then xs else afterFirst c xs

/-- Recover the key names from a merged keyLabel: split on slash, and
strip the first piece down to what follows the last plus sign (the
modifier prefix).  This is the claimed inverse of the merge synthesis. -/
def extractKeys (s : String) : List String :=
  match splitChar '/' s.data with
  | [] => []
  | c :: cs => String.mk (lastSeg '+' c) :: cs.map String.mk

/-- Recover the argument values from a merged actionLabel: drop the
dispatcher prefix up to the first space and split on slash. -/
def extractArgs (s : String) : List String :=
  (splitChar '/' (afterFirst ' ' s.data)).map String.mk

/-- The multiset of key names a grouper output row accounts for, merged
rows split back apart. -/
def recKeys : BindRec → List String
  | BindRec.raw b => [b.key]
  | BindRec.merged k _ => extractKeys k

/-- The multiset of argument values a grouper output row accounts for,
merged rows split back apart. -/
def recArgs : BindRec → List String
  | BindRec.raw b => [b.arg]
  | BindRec.merged _ a => extractArgs a


theorem mem_subDigitsAux_not_digit {b : Bool} {l : List Char} :
    ∀ c ∈ subDigitsAux b l, c.isDigit = false := by
  induction b, l using subDigitsAux.induct with
  | case1 => simp [subDigitsAux]
  | case2 inRun c rest hdig ih =>
    intro x hx
    simp only [subDigitsAux] at hx
    rw [if_pos hdig] at hx
    rcases List.mem_append.1 hx with h | h
    · have hx' : x = '.' := by
        rcases inRun with _ | _
        · simpa using h
        · simp at h
      subst hx'; decide
    · exact ih x h
  | case3 inRun c rest hdig ih =>
    intro x hx
    simp only [subDigitsAux] at hx
    rw [if_neg hdig] at hx
    rcases List.mem_cons.1 hx with h | h
    · subst h; simpa using hdig
    · exact ih x h

theorem subDigitsAux_id {l : List Char} (h : ∀ c ∈ l, c.isDigit = false) (b : Bool) :
    subDigitsAux b l = l := by
  induction l generalizing b with
  | nil => rfl
  | cons c rest ih =>
    have hc : ¬c.isDigit = true := by simp [h c (by simp)]
    simp only [subDigitsAux]
    rw [if_neg hc, ih (fun x hx => h x (by simp [hx])) false]

theorem mem_subDirs {l : List Char} : ∀ c ∈ subDirs l, c = '.' ∨ c ∈ l := by
  induction l using subDirs.induct with
  | case1 rest ih =>
    rw [subDirs.eq_1]
    intro x hx
    rcases List.mem_cons.1 hx with h | hx'
    · exact Or.inl h
    rcases List.mem_cons.1 hx' with h | h
    · exact Or.inl h
    rcases ih x h with h' | h'
    · exact Or.inl h'
    · exact Or.inr (by simp [h'])
  | case2 rest ih =>
    rw [subDirs.eq_2]
    intro x hx
    rcases List.mem_cons.1 hx with h | hx'
    · exact Or.inl h
    rcases List.mem_cons.1 hx' with h | h
    · exact Or.inl h
    rcases ih x h with h' | h'
    · exact Or.inl h'
    · exact Or.inr (by simp [h'])
  | case3 rest ih =>
    rw [subDirs.eq_3]
    intro x hx
    rcases List.mem_cons.1 hx with h | hx'
    · exact Or.inl h
    rcases List.mem_cons.1 hx' with h | h
    · exact Or.inl h
    rcases ih x h with h' | h'
    · exact Or.inl h'
    · exact Or.inr (by simp [h'])
  | case4 rest ih =>
    rw [subDirs.eq_4]
    intro x hx
    rcases List.mem_cons.1 hx with h | hx'
    · exact Or.inl h
    rcases List.mem_cons.1 hx' with h | h
    · exact Or.inl h
    rcases ih x h with h' | h'
    · exact Or.inl h'
    · exact Or.inr (by simp [h'])
  | case5 rest hna ih =>
    rw [subDirs.eq_5 rest hna]
    intro x hx
    rcases List.mem_cons.1 hx with h | hx'
    · exact Or.inl h
    rcases List.mem_cons.1 hx' with h | h
    · exact Or.inl h
    rcases ih x h with h' | h'
    · exact Or.inl h'
    · exact Or.inr (by simp [h'])
  | case6 rest hna ih =>
    rw [subDirs.eq_6 rest hna]
    intro x hx
    rcases List.mem_cons.1 hx with h | hx'
    · exact Or.inl h
    rcases List.mem_cons.1 hx' with h | h
    · exact Or.inl h
    rcases ih x h with h' | h'
    · exact Or.inl h'
    · exact Or.inr (by simp [h'])
  | case7 rest hna ih =>
    rw [subDirs.eq_7 rest hna]
    intro x hx
    rcases List.mem_cons.1 hx with h | hx'
    · exact Or.inl h
    rcases List.mem_cons.1 hx' with h | h
    · exact Or.inl h
    rcases ih x h with h' | h'
    · exact Or.inl h'
    · exact Or.inr (by simp [h'])
  | case8 rest hna ih =>
    rw [subDirs.eq_8 rest hna]
    intro x hx
    rcases List.mem_cons.1 hx with h | hx'
    · exact Or.inl h
    rcases List.mem_cons.1 hx' with h | h
    · exact Or.inl h
    rcases ih x h with h' | h'
    · exact Or.inl h'
    · exact Or.inr (by simp [h'])
  | case9 c rest h1 h2 h3 h4 h5 h6 h7 h8 ih =>
    rw [subDirs.eq_9 c rest h1 h2 h3 h4 h5 h6 h7 h8]
    intro x hx
    rcases List.mem_cons.1 hx with h | h
    · exact Or.inr (by simp [h])
    rcases ih x h with h' | h'
    · exact Or.inl h'
    · exact Or.inr (by simp [h'])
  | case10 => simp [subDirs]

theorem subDirs_no_dirs {l : List Char} :
    ∀ c ∈ subDirs l, c ≠ 'l' ∧ c ≠ 'r' ∧ c ≠ 'u' ∧ c ≠ 'd' := by
  induction l using subDirs.induct with
  | case9 c rest h1 h2 h3 h4 h5 h6 h7 h8 ih =>
    rw [subDirs.eq_9 c rest h1 h2 h3 h4 h5 h6 h7 h8]
    intro x hx
    rcases List.mem_cons.1 hx with h | h
    · subst h
      exact ⟨fun e => h5 e, fun e => h6 e, fun e => h7 e, fun e => h8 e⟩
    · exact ih x h
  | case10 => simp [subDirs]
  | case1 rest ih =>
    rw [subDirs.eq_1]
    intro x hx
    rcases List.mem_cons.1 hx with h | hx'
    · subst h; decide
    rcases List.mem_cons.1 hx' with h | h
    · subst h; decide
    · exact ih x h
  | case2 rest ih =>
    rw [subDirs.eq_2]
    intro x hx
    rcases List.mem_cons.1 hx with h | hx'
    · subst h; decide
    rcases List.mem_cons.1 hx' with h | h
    · subst h; decide
    · exact ih x h
  | case3 rest ih =>
    rw [subDirs.eq_3]
    intro x hx
    rcases List.mem_cons.1 hx with h | hx'
    · subst h; decide
    rcases List.mem_cons.1 hx' with h | h
    · subst h; decide
    · exact ih x h
  | case4 rest ih =>
    rw [subDirs.eq_4]
    intro x hx
    rcases List.mem_cons.1 hx with h | hx'
    · subst h; decide
    rcases List.mem_cons.1 hx' with h | h
    · subst h; decide
    · exact ih x h
  | case5 rest hna ih =>
    rw [subDirs.eq_5 rest hna]
    intro x hx
    rcases List.mem_cons.1 hx with h | hx'
    · subst h; decide
    rcases List.mem_cons.1 hx' with h | h
    · subst h; decide
    · exact ih x h
  | case6 rest hna ih =>
    rw [subDirs.eq_6 rest hna]
    intro x hx
    rcases List.mem_cons.1 hx with h | hx'
    · subst h; decide
    rcases List.mem_cons.1 hx' with h | h
    · subst h; decide
    · exact ih x h
  | case7 rest hna ih =>
    rw [subDirs.eq_7 rest hna]
    intro x hx
    rcases List.mem_cons.1 hx with h | hx'
    · subst h; decide
    rcases List.mem_cons.1 hx' with h | h
    · subst h; decide
    · exact ih x h
  | case8 rest hna ih =>
    rw [subDirs.eq_8 rest hna]
    intro x hx
    rcases List.mem_cons.1 hx with h | hx'
    · subst h; decide
    rcases List.mem_cons.1 hx' with h | h
    · subst h; decide
    · exact ih x h

theorem subDirs_id :
    ∀ (l : List Char), (∀ c ∈ l, c ≠ 'l' ∧ c ≠ 'r' ∧ c ≠ 'u' ∧ c ≠ 'd') → subDirs l = l := by
  intro l
  induction l using subDirs.induct with
  | case1 rest ih => intro h; exact absurd rfl (h 'l' (by simp)).1
  | case2 rest ih => intro h; exact absurd rfl (h 'r' (by simp)).2.1
  | case3 rest ih => intro h; exact absurd rfl (h 'u' (by simp)).2.2.1
  | case4 rest ih => intro h; exact absurd rfl (h 'd' (by simp)).2.2.2
  | case5 rest hna ih => intro h; exact absurd rfl (h 'l' (by simp)).1
  | case6 rest hna ih => intro h; exact absurd rfl (h 'r' (by simp)).2.1
  | case7 rest hna ih => intro h; exact absurd rfl (h 'u' (by simp)).2.2.1
  | case8 rest hna ih => intro h; exact absurd rfl (h 'd' (by simp)).2.2.2
  | case9 c rest h1 h2 h3 h4 h5 h6 h7 h8 ih =>
    intro h
    rw [subDirs.eq_9 c rest h1 h2 h3 h4 h5 h6 h7 h8,
      ih (fun x hx => h x (by simp [hx]))]
  | case10 => intro h; rfl

theorem mem_fingerprint_not_digit {s : String} :
    ∀ c ∈ (fingerprint s).data, c.isDigit = false := by
  intro c hc
  rcases mem_subDirs c hc with h | h
  · subst h; decide
  · exact mem_subDigitsAux_not_digit c h

/-- C6: the arg-shape fingerprint transform (digit-run substitution then
direction-token substitution) is idempotent: a second application
changes nothing, because the first leaves neither digits nor the
characters l, r, u, d in its output. -/
theorem c6_fingerprint_idempotent (s : String) :
    fingerprint (fingerprint s) = fingerprint s := by
  show String.mk (subDirs (subDigits (fingerprint s).data)) = fingerprint s
  rw [show subDigits (fingerprint s).data = (fingerprint s).data from
    subDigitsAux_id mem_fingerprint_not_digit false]
  rw [subDirs_id (fingerprint s).data (fun c hc => subDirs_no_dirs c hc)]

/-- C2 (amended): the fingerprint transform substitutes every maximal
digit run and every occurrence of the direction tokens as substrings,
scanning left to right and trying left, right, up, down, l, r, u, d in
that order, including single direction letters inside longer words (the
regular expression carries no word-boundary anchors), so partial-word
collisions can occur; consequently no digit and none of the characters
l, r, u, d survives in any fingerprint. -/
theorem c2_fingerprint_erases_directions_everywhere (s : String) :
    ∀ c ∈ (fingerprint s).data,
      c.isDigit = false ∧ c ≠ 'l' ∧ c ≠ 'r' ∧ c ≠ 'u' ∧ c ≠ 'd' :=
  fun c hc => ⟨mem_fingerprint_not_digit c hc, subDirs_no_dirs c hc⟩

theorem c2_fingerprint_erases_directions_everywhere_witness :
    't' ∈ (fingerprint "toggle").data ∧
      ('t'.isDigit = false ∧ 't' ≠ 'l' ∧ 't' ≠ 'r' ∧ 't' ≠ 'u' ∧ 't' ≠ 'd') :=
  ⟨by decide, c2_fingerprint_erases_directions_everywhere "toggle" 't' (by decide)⟩

/-- C2 (counterexample): the letter l inside the word toggle, which is
neither a digit run nor a whole direction token, is substituted by the
fingerprint transform, so the claim that only whole tokens are replaced
and partial words are left alone fails on the argument toggle. -/
theorem c2_counterexample :
    fingerprint "toggle" = "togg..e" ∧ fingerprint "toggle" ≠ "toggle" := by
  constructor <;> decide

/-- C7: the normalizer is total: it emits exactly one display record per
input record, so with the no-group flag (where the raw records are fed
through unchanged) the output count equals the input count and nothing
is dropped. -/
theorem c7_normalize_total (l : List BindRec) :
    (normalize_keybinds l).length = l.length := by
  induction l with
  | nil => rfl
  | cons b rest ih => cases b <;> simp [normalize_keybinds, ih]

/-- C8: on the two movewindow bindings with modifier mask 64 and keys
Left and Right, grouping followed by normalization yields exactly the
single merged row with keyLabel SUPER+Left/Right and actionLabel
movewindow l/r. -/
theorem c8_scenario_movewindow :
    normalize_keybinds (group_keybinds
      [{ modmask := 64, key := "Left", dispatcher := "movewindow", arg := "l" },
       { modmask := 64, key := "Right", dispatcher := "movewindow", arg := "r" }]) =
    [{ key := "SUPER+Left/Right", action := "movewindow l/r" }] := by
  decide

/-- C1 (code bug): on an empty record sequence the renderer is not
well-defined: the inner max over the per-entry key lengths is taken over
an empty sequence with no default, so Python raises ValueError instead
of rendering a header-only table, and the program exits nonzero.  The
model returns none (an exception) for every requested width. -/
theorem c1_draw_table_empty_raises (tw : Nat) :
    draw_table [] tw = none := rfl

/-- C3 (counterexample): two bindings with modifier mask 0 (empty
modifier label) and a shared arg shape merge into a row whose keyLabel
is plus a slash b: the leading plus sign is not omitted when the
modifier label is empty, contrary to the claim that keyLabel would then
be a slash b. -/
theorem c3_counterexample :
    group_keybinds
      [{ modmask := 0, key := "a", dispatcher := "x", arg := "1" },
       { modmask := 0, key := "b", dispatcher := "x", arg := "2" }] =
      [BindRec.merged "+a/b" "x 1/2"] ∧ "+a/b" ≠ "a/b" := by
  constructor <;> decide

/-- C5 (counterexample): with arguments that themselves contain slashes
(1/2 and 3/4 share the fingerprint dot dot slash dot dot), the merged
action is resize 1/2/3/4 and splitting it back on slash yields four
arguments instead of the two in the input, so the split-based content
equation fails. -/
theorem c5_counterexample :
    ¬ List.Perm
      ((group_keybinds
        [{ modmask := 64, key := "a", dispatcher := "resize", arg := "1/2" },
         { modmask := 64, key := "b", dispatcher := "resize", arg := "3/4" }]).flatMap recArgs)
      (["1/2", "3/4"]) := by
  decide

theorem head?_insertRec (x : DisplayRec) (l : List DisplayRec) :
    (insertRec x l).head? = some x ∨ (insertRec x l).head? = l.head? := by
  cases l with
  | nil => exact Or.inl rfl
  | cons y ys =>
    by_cases h : x.key ≤ y.key
    · exact Or.inl (by simp [insertRec, h])
    · exact Or.inr (by simp [insertRec, h])

theorem chain'_insertRec (x : DisplayRec) (l : List DisplayRec)
    (h : List.Chain' (fun a b => a.key ≤ b.key) l) :
    List.Chain' (fun a b => a.key ≤ b.key) (insertRec x l) := by
  induction l with
  | nil => simp [insertRec]
  | cons y ys ih =>
    rw [List.chain'_cons'] at h
    by_cases hxy : x.key ≤ y.key
    · rw [show insertRec x (y :: ys) = x :: y :: ys by simp [insertRec, hxy]]
      rw [List.chain'_cons']
      exact ⟨fun z hz => by simp at hz; subst hz; exact hxy,
        List.chain'_cons'.2 h⟩
    · rw [show insertRec x (y :: ys) = y :: insertRec x ys by simp [insertRec, hxy]]
      rw [List.chain'_cons']
      refine ⟨fun z hz => ?_, ih h.2⟩
      rcases head?_insertRec x ys with h' | h'
      · rw [h'] at hz
        simp at hz
        subst hz
        exact le_of_lt (not_le.1 hxy)
      · rw [h'] at hz
        exact h.1 z hz

theorem filter_insertRec_eq (k : String) (x : DisplayRec) (l : List DisplayRec)
    (hx : x.key = k) :
    (insertRec x l).filter (fun r => r.key == k) =
      x :: l.filter (fun r => r.key == k) := by
  induction l with
  | nil => simp [insertRec, List.filter, hx]
  | cons y ys ih =>
    by_cases hxy : x.key ≤ y.key
    · simp only [insertRec, if_pos hxy]
      simp [List.filter_cons, hx]
    · have hyk : (y.key == k) = false := by
        have : y.key < x.key := not_le.1 hxy
        simp [hx ▸ ne_of_lt this]
      simp only [insertRec, if_neg hxy]
      rw [List.filter_cons_of_neg (by simp [hyk]), ih,
        List.filter_cons_of_neg (by simp [hyk])]

theorem filter_insertRec_ne (k : String) (x : DisplayRec) (l : List DisplayRec)
    (hx : x.key ≠ k) :
    (insertRec x l).filter (fun r => r.key == k) =
      l.filter (fun r => r.key == k) := by
  induction l with
  | nil => simp [insertRec, hx]
  | cons y ys ih =>
    by_cases hxy : x.key ≤ y.key
    · simp only [insertRec, if_pos hxy]
      rw [List.filter_cons_of_neg (by simp [hx])]
    · simp only [insertRec, if_neg hxy]
      rw [List.filter_cons, List.filter_cons]
      cases hyk : (y.key == k) <;> simp [ih]

/-- C9: with the sort flag the records handed to the renderer are in
non-decreasing lexicographic order of keyLabel, and the sort is stable:
for every key value, the sublist of records carrying it is exactly the
same, in the same order, before and after sorting.  sortRecs is the
stable ascending sort by key that Python's list.sort implements. -/
theorem c9_sort_sorted_and_stable (l : List DisplayRec) :
    List.Chain' (fun a b => a.key ≤ b.key) (sortRecs l) ∧
      ∀ k : String,
        (sortRecs l).filter (fun r => r.key == k) = l.filter (fun r => r.key == k) := by
  induction l with
  | nil => exact ⟨List.chain'_nil, fun k => rfl⟩
  | cons x xs ih =>
    refine ⟨chain'_insertRec x (sortRecs xs) ih.1, fun k => ?_⟩
    by_cases hx : x.key = k
    · rw [show sortRecs (x :: xs) = insertRec x (sortRecs xs) from rfl,
        filter_insertRec_eq k x (sortRecs xs) hx, ih.2 k,
        List.filter_cons_of_pos (by simp [hx])]
    · rw [show sortRecs (x :: xs) = insertRec x (sortRecs xs) from rfl,
        filter_insertRec_ne k x (sortRecs xs) hx, ih.2 k,
        List.filter_cons_of_neg (by simp [hx])]

theorem wordsAux_nil_of_white {l : List Char}
    (h : ∀ c ∈ l, c.isWhitespace = true) : wordsAux l [] = [] := by
  induction l with
  | nil => rfl
  | cons c rest ih =>
    have hc := h c (by simp)
    simp [wordsAux, hc, ih (fun x hx => h x (by simp [hx]))]

theorem wrapText_nil_of_white {s : String}
    (h : ∀ c ∈ s.data, c.isWhitespace = true) (W : Nat) : wrapText s W = [] := by
  have hw : wordsAux s.data [] = [] := wordsAux_nil_of_white h
  simp [wrapText, hw, fillFuel]

theorem rowsAll_none_of_mem {kw aw : Nat} {e : DisplayRec} :
    ∀ {l : List DisplayRec}, e ∈ l → rowLines kw aw e = none →
      rowsAll kw aw l = none := by
  intro l
  induction l with
  | nil => intro h; simp at h
  | cons f rest ih =>
    intro hmem hnone
    rcases List.mem_cons.1 hmem with h | h
    · subst h
      simp only [rowsAll, hnone]
    · simp only [rowsAll, ih h hnone]
      cases rowLines kw aw f <;> rfl

/-- C10: the renderer is not total on records whose action label is
empty or whitespace-only: wrapping such a label yields no lines and
Python then reads action_lines[0] unconditionally, raising IndexError,
so draw_table fails (returns none) on every entry list containing such a
record, whatever the requested width. -/
theorem c10_draw_table_fails_on_blank_action
    (entries : List DisplayRec) (tw : Nat) (e : DisplayRec)
    (he : e ∈ entries) (hblank : ∀ c ∈ e.action.data, c.isWhitespace = true) :
    draw_table entries tw = none := by
  cases entries with
  | nil => rfl
  | cons x xs =>
    have hrow : rowLines (keyWidthOf (x :: xs) tw) (tw - keyWidthOf (x :: xs) tw - 1) e = none := by
      simp [rowLines, wrapText_nil_of_white hblank]
    simp only [draw_table]
    by_cases haw : tw - keyWidthOf (x :: xs) tw - 1 ≤ 2
    · rw [if_pos haw]
    · rw [if_neg haw, rowsAll_none_of_mem he hrow]

theorem c10_draw_table_fails_on_blank_action_witness :
    draw_table [{ key := "k", action := " " }] 80 = none :=
  c10_draw_table_fails_on_blank_action
    [{ key := "k", action := " " }] 80 { key := "k", action := " " }
    (by decide) (by decide)

theorem length_mk (l : List Char) : (String.mk l).length = l.length := rfl

theorem padTo_length (s : String) (w : Nat) :
    (padTo s w).length = max s.length w := by
  rw [padTo, String.length_append]
  simp only [length_mk, List.length_replicate]
  omega

theorem hline_length (kw aw : Nat) (l m r : Char) :
    (hline kw aw l m r).length = kw + aw + 3 := by
  rw [hline, length_mk]
  simp
  omega

theorem fillFuel_lines_le :
    ∀ (fuel W : Nat) (ws : List (List Char)) (cur : List Char),
      cur.length ≤ max 1 W → ∀ l ∈ fillFuel fuel W ws cur, l.length ≤ max 1 W := by
  intro fuel
  induction fuel with
  | zero =>
    intro W ws cur hcur l hl
    simp only [fillFuel] at hl
    split at hl
    · simp at hl
    · rw [List.mem_singleton] at hl
      subst hl; exact hcur
  | succ fuel ih =>
    intro W ws cur hcur l hl
    cases ws with
    | nil =>
      simp only [fillFuel] at hl
      split at hl
      · simp at hl
      · rw [List.mem_singleton] at hl
        subst hl; exact hcur
    | cons w ws' =>
      simp only [fillFuel] at hl
      by_cases hc : cur.isEmpty = true
      · rw [if_pos hc] at hl
        by_cases hw : w.length ≤ W
        · rw [if_pos hw] at hl
          exact ih W ws' w (le_trans hw (le_max_right 1 W)) l hl
        · rw [if_neg hw] at hl
          rcases List.mem_cons.1 hl with h | h
          · subst h
            rw [List.length_take]
            exact Nat.min_le_left _ _
          · exact ih W _ [] (by simp) l h
      · rw [if_neg hc] at hl
        by_cases hfit : cur.length + 1 + w.length ≤ W
        · rw [if_pos hfit] at hl
          refine ih W ws' _ ?_ l hl
          simp only [List.length_append, List.length_cons]
          omega
        · rw [if_neg hfit] at hl
          rcases List.mem_cons.1 hl with h | h
          · subst h; exact hcur
          · exact ih W _ [] (by simp) l h

theorem wrapText_chunk_le {t : String} {W : Nat} :
    ∀ s ∈ wrapText t W, s.length ≤ max 1 W := by
  intro s hs
  rcases List.mem_map.1 hs with ⟨l, hl, rfl⟩
  exact fillFuel_lines_le _ W _ [] (by simp) l hl

theorem rowsAll_mem_structure {kw aw : Nat} :
    ∀ {l : List DisplayRec} {rows : List String}, rowsAll kw aw l = some rows →
      ∀ s ∈ rows, ∃ e ∈ l, ∃ r, rowLines kw aw e = some r ∧ s ∈ r := by
  intro l
  induction l with
  | nil =>
    intro rows h s hs
    simp only [rowsAll, Option.some.injEq] at h
    subst h
    simp at hs
  | cons e rest ih =>
    intro rows h s hs
    simp only [rowsAll] at h
    cases hre : rowLines kw aw e with
    | none => rw [hre] at h; simp at h
    | some ls =>
      rw [hre] at h
      cases hrr : rowsAll kw aw rest with
      | none => rw [hrr] at h; simp at h
      | some more =>
        rw [hrr] at h
        simp only [Option.some.injEq] at h
        subst h
        rcases List.mem_append.1 hs with hmem | hmem
        · exact ⟨e, by simp, ls, hre, hmem⟩
        · rcases ih hrr s hmem with ⟨f, hf, r, hr, hsr⟩
          exact ⟨f, by simp [hf], r, hr, hsr⟩

theorem rowLines_line_length {kw aw : Nat} {e : DisplayRec} {r : List String}
    (h : rowLines kw aw e = some r) (haw : 3 ≤ aw) (hk1 : 1 ≤ kw)
    (hkey : e.key.length ≤ kw) :
    ∀ s ∈ r, s.length = kw + aw + 3 := by
  intro s hs
  simp only [rowLines] at h
  cases hwrap : wrapText e.action (aw - 2) with
  | nil => rw [hwrap] at h; simp at h
  | cons first more =>
    rw [hwrap] at h
    simp only [Option.some.injEq] at h
    subst h
    have hfirst : first.length ≤ aw - 2 := by
      have := wrapText_chunk_le first (hwrap ▸ List.mem_cons_self first more)
      omega
    rcases List.mem_cons.1 hs with hmain | hcont
    · subst hmain
      simp only [String.length_append, padTo_length]
      have h1 : ("│" : String).length = 1 := rfl
      rw [h1]
      omega
    · rcases List.mem_map.1 hcont with ⟨extra, hextra, rfl⟩
      have hex : extra.length ≤ aw - 2 := by
        have := wrapText_chunk_le extra (hwrap ▸ List.mem_cons_of_mem first hextra)
        omega
      simp only [String.length_append, padTo_length]
      have h1 : ("│" : String).length = 1 := rfl
      have h2 : ("→ " : String).length = 2 := rfl
      have h3 : (" " : String).length = 1 := rfl
      rw [h1, h2, h3]
      omega

/-- C4 (amended): every line the renderer emits, border characters
included, has length exactly the requested total width plus 2 (the two
outer border columns), never more, provided the requested width is at
least 14 (so that the fixed header labels fit their columns) and every
keyLabel fits inside the computed left column; the left column width is
min of (max of header label length and longest keyLabel length) plus 2
and half the total width, as keyWidthOf states.  Without those provisos
lines can be longer still, so the original bound of the requested width
itself never holds: see the counterexample. -/
theorem c4_draw_table_lines_width (entries : List DisplayRec) (tw : Nat)
    (htw : 14 ≤ tw)
    (hkeys : ∀ e ∈ entries, e.key.length ≤ keyWidthOf entries tw)
    (lines : List String) (h : draw_table entries tw = some lines) :
    ∀ s ∈ lines, s.length = tw + 2 := by
  cases entries with
  | nil => simp [draw_table] at h
  | cons x xs =>
    have hkw2 : keyWidthOf (x :: xs) tw ≤ tw / 2 := Nat.min_le_right _ _
    have hkw7 : 7 ≤ keyWidthOf (x :: xs) tw := by
      have h2 : ("Keybind" : String).length = 7 := rfl
      simp only [keyWidthOf, h2]
      omega
    simp only [draw_table] at h
    by_cases haw : tw - keyWidthOf (x :: xs) tw - 1 ≤ 2
    · rw [if_pos haw] at h; simp at h
    · rw [if_neg haw] at h
      cases hra : rowsAll (keyWidthOf (x :: xs) tw) (tw - keyWidthOf (x :: xs) tw - 1) (x :: xs) with
      | none => rw [hra] at h; simp at h
      | some rows =>
        rw [hra] at h
        simp only [Option.some.injEq] at h
        subst h
        intro s hs
        have haw3 : 3 ≤ tw - keyWidthOf (x :: xs) tw - 1 := by omega
        have haw6 : 6 ≤ tw - keyWidthOf (x :: xs) tw - 1 := by omega
        rcases List.mem_cons.1 hs with h1 | hs1
        · subst h1; rw [hline_length]; omega
        rcases List.mem_cons.1 hs1 with h2 | hs2
        · subst h2
          simp only [String.length_append, padTo_length]
          have hb : ("│" : String).length = 1 := rfl
          have hK : ("Keybind" : String).length = 7 := rfl
          have hA : ("Action" : String).length = 6 := rfl
          rw [hb, hK, hA]
          omega
        rcases List.mem_cons.1 hs2 with h3 | hs3
        · subst h3; rw [hline_length]; omega
        rcases List.mem_append.1 hs3 with hrow | hbot
        · rcases rowsAll_mem_structure hra s hrow with ⟨e, he, r, hr, hsr⟩
          have := rowLines_line_length hr haw3 (by omega) (hkeys e he) s hsr
          omega
        · rw [List.mem_singleton] at hbot
          subst hbot; rw [hline_length]; omega

theorem c4_draw_table_lines_width_witness :
    (((draw_table [{ key := "a", action := "b" }] 40).getD []).head?.getD "").length = 42 := by
  have h := c4_draw_table_lines_width [{ key := "a", action := "b" }] 40 (by decide)
    (by decide) ((draw_table [{ key := "a", action := "b" }] 40).getD []) (by rfl)
  exact h _ (by decide)

/-- C4 (counterexample): at requested total width 40 the renderer emits
five lines of 42 characters each for a single short entry, so lines do
exceed the requested total width (by the two border columns). -/
theorem c4_counterexample :
    ((draw_table [{ key := "a", action := "b" }] 40).getD []).map String.length =
      [42, 42, 42, 42, 42] := by
  decide

theorem splitChar_ne_nil (c : Char) (l : List Char) : splitChar c l ≠ [] := by
  induction l with
  | nil => simp [splitChar]
  | cons x xs ih =>
    simp only [splitChar]
    cases h : splitChar c xs with
    | nil => exact absurd h ih
    | cons w ws =>
      by_cases hx : x = c
      · simp [hx]
      · simp [hx]

theorem splitChar_of_not_mem {c : Char} {l : List Char} (h : c ∉ l) :
    splitChar c l = [l] := by
  induction l with
  | nil => rfl
  | cons x xs ih =>
    have hx : x ≠ c := fun e => h (by simp [e])
    have hxs : splitChar c xs = [xs] := ih (fun e => h (by simp [e]))
    simp [splitChar, hxs, hx]

theorem splitChar_cons_sep (c : Char) (t : List Char) :
    splitChar c (c :: t) = [] :: splitChar c t := by
  simp only [splitChar]
  cases hs : splitChar c t with
  | nil => exact absurd hs (splitChar_ne_nil c t)
  | cons w ws => simp

theorem splitChar_cons_ne {c x : Char} (t : List Char) (hx : x ≠ c) {w : List Char}
    {ws : List (List Char)} (hs : splitChar c t = w :: ws) :
    splitChar c (x :: t) = (x :: w) :: ws := by
  simp only [splitChar, hs]
  simp [hx]

theorem splitChar_sep {c : Char} {pre t : List Char} (h : c ∉ pre) :
    splitChar c (pre ++ c :: t) = pre :: splitChar c t := by
  induction pre with
  | nil => rw [List.nil_append, splitChar_cons_sep]
  | cons x pre' ih =>
    have hx : x ≠ c := fun e => h (by simp [e])
    have hpre : c ∉ pre' := fun e => h (by simp [e])
    rw [List.cons_append, splitChar_cons_ne (pre' ++ c :: t) hx (ih hpre)]

theorem splitChar_length (c : Char) (l : List Char) :
    (splitChar c l).length = l.count c + 1 := by
  induction l with
  | nil => rfl
  | cons x xs ih =>
    cases hs : splitChar c xs with
    | nil => exact absurd hs (splitChar_ne_nil c xs)
    | cons w ws =>
      rw [hs] at ih
      by_cases hx : x = c
      · subst hx
        rw [splitChar_cons_sep, hs, List.count_cons_self]
        simp only [List.length_cons] at ih ⊢
        omega
      · rw [splitChar_cons_ne xs hx hs, List.count_cons_of_ne (fun e => hx e.symm)]
        simp only [List.length_cons] at ih ⊢
        omega

theorem splitChar_getLastD {c : Char} {b : List Char} (h : c ∉ b) :
    ∀ a : List Char, (splitChar c (a ++ c :: b)).getLastD [] = b := by
  intro a
  induction a with
  | nil =>
    rw [List.nil_append, splitChar_cons_sep, splitChar_of_not_mem h]
    rfl
  | cons x a' ih =>
    cases hs : splitChar c (a' ++ c :: b) with
    | nil => exact absurd hs (splitChar_ne_nil c _)
    | cons w ws =>
      have hws : ws ≠ [] := by
        have hlen := splitChar_length c (a' ++ c :: b)
        rw [hs] at hlen
        have hcount : 1 ≤ (a' ++ c :: b).count c :=
          List.one_le_count_iff.2 (by simp)
        intro e
        subst e
        simp only [List.length_cons, List.length_nil] at hlen
        omega
      rw [hs] at ih
      rw [List.cons_append]
      by_cases hx : x = c
      · subst hx
        rw [splitChar_cons_sep, hs, List.getLastD_cons]
        exact ih
      · rw [splitChar_cons_ne (a' ++ c :: b) hx hs]
        rw [List.getLastD_cons] at ih ⊢
        cases ws with
        | nil => exact absurd rfl hws
        | cons u us =>
          rw [List.getLastD_cons] at ih ⊢
          exact ih

theorem natToChars_isDigit : ∀ (n : Nat), ∀ c ∈ natToChars n, c.isDigit = true := by
  intro n
  induction n using natToChars.induct with
  | case1 n h =>
    intro c hc
    rw [natToChars, if_pos h] at hc
    rw [List.mem_singleton] at hc
    subst hc
    interval_cases n <;> decide
  | case2 n h ih =>
    intro c hc
    rw [natToChars, if_neg h] at hc
    rcases List.mem_append.1 hc with h' | h'
    · exact ih c h'
    · rw [List.mem_singleton] at h'
      subst h'
      have hm : n % 10 < 10 := Nat.mod_lt _ (by omega)
      set k := n % 10 with hk
      interval_cases k <;> decide

theorem format_modmask_no_slash (m : Nat) : '/' ∉ (format_modmask m).data := by
  unfold format_modmask
  by_cases h1 : m = 64
  · rw [if_pos h1]; decide
  rw [if_neg h1]
  by_cases h2 : m = 65
  · rw [if_pos h2]; decide
  rw [if_neg h2]
  by_cases h3 : m = 68
  · rw [if_pos h3]; decide
  rw [if_neg h3]
  by_cases h4 : m = 72
  · rw [if_pos h4]; decide
  rw [if_neg h4]
  by_cases h5 : m = 0
  · rw [if_pos h5]; decide
  rw [if_neg h5]
  intro hmem
  rw [String.data_append] at hmem
  rcases List.mem_append.1 hmem with h' | h'
  · revert h'
    decide
  · exact absurd (natToChars_isDigit m '/' h') (by decide)

theorem splitChar_joinSep_slash :
    ∀ (ks : List String), ks ≠ [] → (∀ k ∈ ks, '/' ∉ k.data) →
      splitChar '/' (joinSep "/" ks).data = ks.map String.data := by
  intro ks
  induction ks with
  | nil => intro h; exact absurd rfl h
  | cons k rest ih =>
    intro _ hk
    cases rest with
    | nil =>
      show splitChar '/' k.data = [k.data]
      exact splitChar_of_not_mem (hk k (by simp))
    | cons k2 rest' =>
      have hdata : (joinSep "/" (k :: k2 :: rest')).data
          = k.data ++ '/' :: (joinSep "/" (k2 :: rest')).data := by
        show (k ++ "/" ++ joinSep "/" (k2 :: rest')).data = _
        rw [String.data_append, String.data_append]
        simp
      rw [hdata, splitChar_sep (hk k (by simp)),
        ih (by simp) (fun x hx => hk x (by simp [hx]))]
      rfl

theorem joinSep_prepend (mod : String) (k1 : String) (rest : List String) :
    mod ++ "+" ++ joinSep "/" (k1 :: rest) = joinSep "/" ((mod ++ "+" ++ k1) :: rest) := by
  cases rest with
  | nil => rfl
  | cons k2 rest' =>
    show mod ++ "+" ++ (k1 ++ "/" ++ joinSep "/" (k2 :: rest'))
      = (mod ++ "+" ++ k1) ++ "/" ++ joinSep "/" (k2 :: rest')
    apply String.ext
    simp only [String.data_append]
    simp

theorem map_mk_map_data (l : List String) :
    (l.map String.data).map String.mk = l := by
  rw [List.map_map]
  rw [show (String.mk ∘ String.data) = id from funext (fun s => rfl)]
  exact List.map_id l

theorem extractKeys_merge (mod : String) (k1 : String) (rest : List String)
    (hmod : '/' ∉ mod.data)
    (hk : ∀ k ∈ k1 :: rest, '/' ∉ k.data ∧ '+' ∉ k.data) :
    extractKeys (mod ++ "+" ++ joinSep "/" (k1 :: rest)) = k1 :: rest := by
  rw [joinSep_prepend]
  have hfirst : '/' ∉ (mod ++ "+" ++ k1).data := by
    rw [String.data_append, String.data_append]
    intro hmem
    rcases List.mem_append.1 hmem with h' | h'
    · rcases List.mem_append.1 h' with h'' | h''
      · exact hmod h''
      · revert h''; decide
    · exact (hk k1 (by simp)).1 h'
  have hsplit : splitChar '/' (joinSep "/" ((mod ++ "+" ++ k1) :: rest)).data
      = (mod ++ "+" ++ k1).data :: rest.map String.data := by
    rw [splitChar_joinSep_slash ((mod ++ "+" ++ k1) :: rest) (by simp)
      (fun x hx => by
        rcases List.mem_cons.1 hx with h | h
        · subst h; exact hfirst
        · exact (hk x (by simp [h])).1)]
    rfl
  have hstep : extractKeys (joinSep "/" ((mod ++ "+" ++ k1) :: rest))
      = String.mk (lastSeg '+' (mod ++ "+" ++ k1).data) :: (rest.map String.data).map String.mk := by
    unfold extractKeys
    rw [hsplit]
  rw [hstep]
  have hlast : lastSeg '+' (mod ++ "+" ++ k1).data = k1.data := by
    have hd : (mod ++ "+" ++ k1).data = mod.data ++ '+' :: k1.data := by
      rw [String.data_append, String.data_append]
      simp
    rw [lastSeg, hd]
    exact splitChar_getLastD (hk k1 (by simp)).2 mod.data
  rw [hlast, map_mk_map_data]

theorem afterFirst_sep {c : Char} {d : List Char} (h : c ∉ d) (t : List Char) :
    afterFirst c (d ++ c :: t) = t := by
  induction d with
  | nil => simp [afterFirst]
  | cons x d' ih =>
    have hx : x ≠ c := fun e => h (by simp [e])
    rw [List.cons_append]
    simp only [afterFirst, hx, if_neg]
    exact ih (fun e => h (by simp [e]))

theorem extractArgs_merge (d : String) (a1 : String) (rest : List String)
    (hd : ' ' ∉ d.data) (ha : ∀ x ∈ a1 :: rest, '/' ∉ x.data) :
    extractArgs (d ++ " " ++ joinSep "/" (a1 :: rest)) = a1 :: rest := by
  unfold extractArgs
  have hdata : (d ++ " " ++ joinSep "/" (a1 :: rest)).data
      = d.data ++ ' ' :: (joinSep "/" (a1 :: rest)).data := by
    rw [String.data_append, String.data_append]
    simp
  rw [hdata, afterFirst_sep hd, splitChar_joinSep_slash _ (by simp) ha,
    map_mk_map_data]

theorem map_fst_insertG {κ α : Type} [DecidableEq κ] (k : κ) (v : α)
    (acc : List (κ × List α)) :
    (insertG k v acc).map Prod.fst =
      if k ∈ acc.map Prod.fst then acc.map Prod.fst else acc.map Prod.fst ++ [k] := by
  induction acc with
  | nil => simp [insertG]
  | cons p rest ih =>
    simp only [insertG]
    by_cases hp : p.1 = k
    · rw [if_pos hp]
      have hmem : k ∈ (p :: rest).map Prod.fst := by simp [hp.symm]
      rw [if_pos hmem]
      simp
    · rw [if_neg hp]
      simp only [List.map_cons, ih]
      by_cases hk : k ∈ rest.map Prod.fst
      · rw [if_pos hk, if_pos (by simp [hk])]
      · rw [if_neg hk, if_neg (by
          simp only [List.map_cons, List.mem_cons]
          push_neg
          exact ⟨fun e => hp e.symm, hk⟩)]
        simp

theorem nodup_insertG {κ α : Type} [DecidableEq κ] (k : κ) (v : α)
    {acc : List (κ × List α)} (h : (acc.map Prod.fst).Nodup) :
    ((insertG k v acc).map Prod.fst).Nodup := by
  rw [map_fst_insertG]
  by_cases hk : k ∈ acc.map Prod.fst
  · rw [if_pos hk]; exact h
  · rw [if_neg hk]
    rw [show acc.map Prod.fst ++ [k] = (acc.map Prod.fst).concat k from
      (List.concat_eq_append _ _).symm]
    exact h.concat hk

theorem mem_insertG {κ α : Type} [DecidableEq κ] {k : κ} {v : α}
    {acc : List (κ × List α)} {p : κ × List α}
    (hnd : (acc.map Prod.fst).Nodup) (h : p ∈ insertG k v acc) :
    (p ∈ acc ∧ p.1 ≠ k) ∨ (∃ vs, (k, vs) ∈ acc ∧ p = (k, vs ++ [v])) ∨
      (k ∉ acc.map Prod.fst ∧ p = (k, [v])) := by
  induction acc with
  | nil =>
    simp only [insertG, List.mem_singleton] at h
    exact Or.inr (Or.inr ⟨by simp, h⟩)
  | cons q rest ih =>
    simp only [insertG] at h
    rw [List.map_cons, List.nodup_cons] at hnd
    by_cases hq : q.1 = k
    · rw [if_pos hq] at h
      rcases List.mem_cons.1 h with h' | h'
      · refine Or.inr (Or.inl ⟨q.2, ?_, ?_⟩)
        · rw [show (k, q.2) = q from by rw [← hq]]
          simp
        · rw [h', hq]
      · refine Or.inl ⟨by simp [h'], fun e => ?_⟩
        have : p.1 ∈ rest.map Prod.fst := List.mem_map_of_mem Prod.fst h'
        rw [e, ← hq] at this
        exact hnd.1 this
    · rw [if_neg hq] at h
      rcases List.mem_cons.1 h with h' | h'
      · exact Or.inl ⟨by simp [h'], h' ▸ hq⟩
      · rcases ih hnd.2 h' with ⟨hin, hne⟩ | ⟨vs, hvs, he⟩ | ⟨hout, he⟩
        · exact Or.inl ⟨by simp [hin], hne⟩
        · exact Or.inr (Or.inl ⟨vs, by simp [hvs], he⟩)
        · refine Or.inr (Or.inr ⟨?_, he⟩)
          simp only [List.map_cons, List.mem_cons]
          push_neg
          exact ⟨fun e => hq e.symm, hout⟩

theorem dictGroup_invariant {κ α : Type} [DecidableEq κ] (f : α → κ) :
    ∀ (bs done : List α) (acc : List (κ × List α)),
      (∀ p ∈ acc, p.2 = done.filter (fun x => decide (f x = p.1))) →
      (∀ k, k ∉ acc.map Prod.fst → done.filter (fun x => decide (f x = k)) = []) →
      (acc.map Prod.fst).Nodup →
      ∀ p ∈ dictGroup f bs acc, p.2 = (done ++ bs).filter (fun x => decide (f x = p.1)) := by
  intro bs
  induction bs with
  | nil =>
    intro done acc h1 h2 h3 p hp
    rw [List.append_nil]
    exact h1 p hp
  | cons b bs ih =>
    intro done acc h1 h2 h3 p hp
    have step := ih (done ++ [b]) (insertG (f b) b acc) ?h1 ?h2 ?h3 p hp
    · rw [step, List.append_assoc, List.singleton_append]
    case h1 =>
      intro q hq
      rcases mem_insertG h3 hq with ⟨hin, hne⟩ | ⟨vs, hvs, he⟩ | ⟨hout, he⟩
      · rw [h1 q hin, List.filter_append]
        have hbq : ¬ f b = q.1 := fun e => hne e.symm
        have hnil : [b].filter (fun x => decide (f x = q.1)) = [] := by simp [hbq]
        rw [hnil, List.append_nil]
      · have h1' : vs = done.filter (fun x => decide (f x = f b)) := h1 (f b, vs) hvs
        rw [he]
        show vs ++ [b] = (done ++ [b]).filter (fun x => decide (f x = f b))
        rw [List.filter_append, ← h1']
        simp
      · have h2' : done.filter (fun x => decide (f x = f b)) = [] := h2 (f b) hout
        rw [he]
        show [b] = (done ++ [b]).filter (fun x => decide (f x = f b))
        rw [List.filter_append, h2']
        simp
    case h2 =>
      intro k hk
      rw [map_fst_insertG] at hk
      by_cases hfb : f b ∈ acc.map Prod.fst
      · rw [if_pos hfb] at hk
        have hkb : ¬ f b = k := fun e => hk (e ▸ hfb)
        rw [List.filter_append, h2 k hk]
        simp [hkb]
      · rw [if_neg hfb] at hk
        simp only [List.mem_append, List.mem_singleton] at hk
        push_neg at hk
        have hkb : ¬ f b = k := fun e => hk.2 e.symm
        rw [List.filter_append, h2 k hk.1]
        simp [hkb]
    case h3 => exact nodup_insertG (f b) b h3

theorem dictGroup_mem_filter {κ α : Type} [DecidableEq κ] (f : α → κ)
    (l : List α) {p : κ × List α} (hp : p ∈ dictGroup f l []) :
    p.2 = l.filter (fun x => decide (f x = p.1)) := by
  have := dictGroup_invariant f l [] [] (by simp) (fun k _ => rfl) (by simp) p hp
  rwa [List.nil_append] at this

theorem flatMap_insertG {κ α : Type} [DecidableEq κ] (k : κ) (v : α)
    (acc : List (κ × List α)) :
    List.Perm ((insertG k v acc).flatMap Prod.snd) (acc.flatMap Prod.snd ++ [v]) := by
  induction acc with
  | nil => simp [insertG]
  | cons q rest ih =>
    simp only [insertG]
    by_cases hq : q.1 = k
    · rw [if_pos hq]
      simp only [List.flatMap_cons]
      rw [List.append_assoc, List.append_assoc]
      exact List.Perm.append_left q.2 (List.perm_append_comm)
    · rw [if_neg hq]
      simp only [List.flatMap_cons]
      rw [List.append_assoc]
      exact List.Perm.append_left q.2 ih

theorem flatMap_dictGroup {κ α : Type} [DecidableEq κ] (f : α → κ) :
    ∀ (bs : List α) (acc : List (κ × List α)),
      List.Perm ((dictGroup f bs acc).flatMap Prod.snd) (acc.flatMap Prod.snd ++ bs) := by
  intro bs
  induction bs with
  | nil => intro acc; simp [dictGroup]
  | cons b bs ih =>
    intro acc
    show List.Perm ((dictGroup f bs (insertG (f b) b acc)).flatMap Prod.snd) _
    refine List.Perm.trans (ih (insertG (f b) b acc)) ?_
    refine List.Perm.trans (List.Perm.append_right bs (flatMap_insertG (f b) b acc)) ?_
    rw [List.append_assoc, List.singleton_append]

theorem dictGroup_content_perm {κ α : Type} [DecidableEq κ] (f : α → κ)
    (l : List α) :
    List.Perm ((dictGroup f l []).flatMap Prod.snd) l := by
  have := flatMap_dictGroup f l []
  simpa using this

/-- C3 (amended): every merged row synthesized by the grouper for some
(modifier mask, dispatcher) bucket and fingerprint sub-partition has
keyLabel equal to the modifier label joined by a plus sign to the
slash-joined keys of the sub-partition in encounter order, and
actionLabel equal to the dispatcher and the slash-joined args; the plus
sign after the modifier label is always present, including when the
modifier mask formats to the empty string (the merge branch, unlike
format_keybind, never omits it - see the counterexample). -/
theorem c3_merged_row_format (binds : List RawBind) (k a : String)
    (h : BindRec.merged k a ∈ group_keybinds binds) :
    ∃ m d fp,
      2 ≤ (bucketOf binds m d fp).length ∧
      k = format_modmask m ++ "+" ++ joinSep "/" ((bucketOf binds m d fp).map (fun e => e.key)) ∧
      a = d ++ " " ++ joinSep "/" ((bucketOf binds m d fp).map (fun e => e.arg)) := by
  unfold group_keybinds at h
  rcases List.mem_flatMap.1 h with ⟨p, hp, hmem⟩
  rcases List.mem_flatMap.1 hmem with ⟨q, hq, hrow⟩
  have hp2 := dictGroup_mem_filter _ binds hp
  have hq2 := dictGroup_mem_filter _ p.2 hq
  cases hg : q.2 with
  | nil =>
    rw [hg] at hrow
    simp [mergeRows] at hrow
  | cons b rest =>
    cases rest with
    | nil =>
      rw [hg] at hrow
      simp [mergeRows] at hrow
    | cons c rest' =>
      rw [hg] at hrow
      simp only [mergeRows, List.mem_singleton] at hrow
      rw [BindRec.merged.injEq] at hrow
      have hgq : bucketOf binds p.1.1 p.1.2 q.1 = q.2 := by
        unfold bucketOf
        rw [show ((p.1.1, p.1.2) : Nat × String) = p.1 from rfl, ← hp2, ← hq2]
      refine ⟨p.1.1, p.1.2, q.1, ?_, ?_, ?_⟩
      · rw [hgq, hg]
        simp
      · have hb : b ∈ q.2 := by rw [hg]; simp
        have hbp : b ∈ p.2 := by
          rw [hq2] at hb
          exact (List.mem_filter.1 hb).1
        rw [hp2] at hbp
        have hpair : (b.modmask, b.dispatcher) = p.1 :=
          of_decide_eq_true (List.mem_filter.1 hbp).2
        have hm : b.modmask = p.1.1 := congrArg Prod.fst hpair
        rw [hgq, hg, hrow.1, hm]
      · rw [hgq, hg]
        exact hrow.2

theorem c3_merged_row_format_witness :
    ∃ m d fp,
      2 ≤ (bucketOf [{ modmask := 0, key := "a", dispatcher := "x", arg := "1" },
             { modmask := 0, key := "b", dispatcher := "x", arg := "2" }] m d fp).length ∧
      "+a/b" = format_modmask m ++ "+" ++ joinSep "/"
          ((bucketOf [{ modmask := 0, key := "a", dispatcher := "x", arg := "1" },
             { modmask := 0, key := "b", dispatcher := "x", arg := "2" }] m d fp).map (fun e => e.key)) ∧
      "x 1/2" = d ++ " " ++ joinSep "/"
          ((bucketOf [{ modmask := 0, key := "a", dispatcher := "x", arg := "1" },
             { modmask := 0, key := "b", dispatcher := "x", arg := "2" }] m d fp).map (fun e => e.arg)) :=
  c3_merged_row_format
    [{ modmask := 0, key := "a", dispatcher := "x", arg := "1" },
     { modmask := 0, key := "b", dispatcher := "x", arg := "2" }]
    "+a/b" "x 1/2" (by decide)

theorem mergeRows_recKeys (d : String) (g : List RawBind)
    (hk : ∀ b ∈ g, '/' ∉ b.key.data ∧ '+' ∉ b.key.data) :
    (mergeRows d g).flatMap recKeys = g.map (fun e => e.key) := by
  cases g with
  | nil => rfl
  | cons b rest =>
    cases rest with
    | nil => rfl
    | cons c rest' =>
      simp only [mergeRows, List.flatMap_cons, List.flatMap_nil, List.append_nil, recKeys]
      rw [show (b :: c :: rest').map (fun e => e.key)
          = b.key :: (c :: rest').map (fun e => e.key) from rfl]
      refine extractKeys_merge _ _ _ (format_modmask_no_slash _) ?_
      intro x hx
      rw [show b.key :: (c :: rest').map (fun e => e.key)
          = (b :: c :: rest').map (fun e => e.key) from rfl] at hx
      rcases List.mem_map.1 hx with ⟨e, he, rfl⟩
      exact ⟨(hk e he).1, (hk e he).2⟩

theorem mergeRows_recArgs (d : String) (g : List RawBind)
    (hd : ' ' ∉ d.data) (ha : ∀ b ∈ g, '/' ∉ b.arg.data) :
    (mergeRows d g).flatMap recArgs = g.map (fun e => e.arg) := by
  cases g with
  | nil => rfl
  | cons b rest =>
    cases rest with
    | nil => rfl
    | cons c rest' =>
      simp only [mergeRows, List.flatMap_cons, List.flatMap_nil, List.append_nil, recArgs]
      rw [show (b :: c :: rest').map (fun e => e.arg)
          = b.arg :: (c :: rest').map (fun e => e.arg) from rfl]
      refine extractArgs_merge _ _ _ hd ?_
      intro x hx
      rw [show b.arg :: (c :: rest').map (fun e => e.arg)
          = (b :: c :: rest').map (fun e => e.arg) from rfl] at hx
      rcases List.mem_map.1 hx with ⟨e, he, rfl⟩
      exact ha e he

theorem group_keybinds_content {β : Type} (binds : List RawBind)
    (F : BindRec → List β) (proj : RawBind → β)
    (hrow : ∀ (d : String) (g : List RawBind),
      (∀ b ∈ g, b ∈ binds ∧ b.dispatcher = d) →
      (mergeRows d g).flatMap F = g.map proj) :
    List.Perm ((group_keybinds binds).flatMap F) (binds.map proj) := by
  unfold group_keybinds
  rw [List.flatMap_assoc]
  have hstep : ∀ p ∈ dictGroup (fun b => (b.modmask, b.dispatcher)) binds [],
      ((dictGroup (fun b => fingerprint b.arg) p.2 []).flatMap
        (fun q => mergeRows p.1.2 q.2)).flatMap F
      = ((dictGroup (fun b => fingerprint b.arg) p.2 []).flatMap Prod.snd).map proj := by
    intro p hp
    rw [List.flatMap_assoc]
    rw [List.map_flatMap]
    refine List.flatMap_congr ?_
    intro q hq
    refine hrow p.1.2 q.2 ?_
    intro b hb
    have hq2 := dictGroup_mem_filter _ p.2 hq
    have hp2 := dictGroup_mem_filter _ binds hp
    rw [hq2] at hb
    have hbp := (List.mem_filter.1 hb).1
    rw [hp2] at hbp
    have hbmem := (List.mem_filter.1 hbp).1
    have hpair : (b.modmask, b.dispatcher) = p.1 :=
      of_decide_eq_true (List.mem_filter.1 hbp).2
    exact ⟨hbmem, congrArg Prod.snd hpair⟩
  rw [List.flatMap_congr hstep]
  have h1 : ∀ p ∈ dictGroup (fun b => (b.modmask, b.dispatcher)) binds [],
      List.Perm (((dictGroup (fun b => fingerprint b.arg) p.2 []).flatMap Prod.snd).map proj)
        ((Prod.snd p).map proj) :=
    fun p _ => (dictGroup_content_perm (fun b => fingerprint b.arg) p.2).map proj
  have h2 := List.Perm.flatMap_left
    (dictGroup (fun b => (b.modmask, b.dispatcher)) binds []) h1
  refine h2.trans ?_
  have h3 : ((dictGroup (fun b => (b.modmask, b.dispatcher)) binds []).flatMap
      (fun p => (Prod.snd p).map proj))
      = ((dictGroup (fun b => (b.modmask, b.dispatcher)) binds []).flatMap Prod.snd).map proj :=
    (List.map_flatMap proj Prod.snd _).symm
  rw [h3]
  exact (dictGroup_content_perm (fun b => (b.modmask, b.dispatcher)) binds).map proj

/-- C5 (amended): grouping is lossless in content up to splitting, as
long as splitting can invert the label synthesis: when no key contains a
slash or a plus sign, no argument contains a slash, and no dispatcher
name contains a space, the multiset of keys recovered from the output
rows (raw rows directly, merged keyLabels stripped of their modifier
prefix and split on slash) is a permutation of the input keys, and
likewise for the arguments (actionLabels stripped of the dispatcher
prefix and split on slash).  Without these provisos recovery by
splitting fails: see the counterexample, where arguments containing
slashes split into more pieces than went in. -/
theorem c5_grouping_lossless (binds : List RawBind)
    (h : ∀ b ∈ binds, '/' ∉ b.key.data ∧ '+' ∉ b.key.data ∧
      '/' ∉ b.arg.data ∧ ' ' ∉ b.dispatcher.data) :
    List.Perm ((group_keybinds binds).flatMap recKeys) (binds.map (fun b => b.key)) ∧
    List.Perm ((group_keybinds binds).flatMap recArgs) (binds.map (fun b => b.arg)) := by
  constructor
  · refine group_keybinds_content binds recKeys (fun b => b.key) ?_
    intro d g hg
    refine mergeRows_recKeys d g ?_
    intro b hb
    exact ⟨(h b (hg b hb).1).1, (h b (hg b hb).1).2.1⟩
  · refine group_keybinds_content binds recArgs (fun b => b.arg) ?_
    intro d g hg
    cases g with
    | nil => rfl
    | cons b rest =>
      refine mergeRows_recArgs d (b :: rest) ?_ ?_
      · have hbd : b.dispatcher = d := (hg b (by simp)).2
        have := (h b (hg b (by simp)).1).2.2.2
        rwa [hbd] at this
      · intro x hx
        exact (h x (hg x hx).1).2.2.1

theorem c5_grouping_lossless_witness :
    List.Perm ((group_keybinds
        [{ modmask := 64, key := "Left", dispatcher := "movewindow", arg := "l" },
         { modmask := 64, key := "Right", dispatcher := "movewindow", arg := "r" }]).flatMap recKeys)
      (([{ modmask := 64, key := "Left", dispatcher := "movewindow", arg := "l" },
         { modmask := 64, key := "Right", dispatcher := "movewindow", arg := "r" }] : List RawBind).map
        (fun b => b.key)) ∧
    List.Perm ((group_keybinds
        [{ modmask := 64, key := "Left", dispatcher := "movewindow", arg := "l" },
         { modmask := 64, key := "Right", dispatcher := "movewindow", arg := "r" }]).flatMap recArgs)
      (([{ modmask := 64, key := "Left", dispatcher := "movewindow", arg := "l" },
         { modmask := 64, key := "Right", dispatcher := "movewindow", arg := "r" }] : List RawBind).map
        (fun b => b.arg)) :=
  c5_grouping_lossless
    [{ modmask := 64, key := "Left", dispatcher := "movewindow", arg := "l" },
     { modmask := 64, key := "Right", dispatcher := "movewindow", arg := "r" }]
    (by decide)
